import Mathlib

/-!
Verification of the canonical CBOR encoder in serialize.rs and of the
input-size boundary checks of the signature-verification wrapper in
verify.rs, shallowly embedded from the Rust source.

Bytes are modelled as natural numbers (every u8 cast is an explicit
percent 256); u64 values as natural numbers with explicit truncation
where the source casts; i64 values as integers. A Rust function that can
panic (the two asserts) is modelled as returning an Option, with none
standing for the panic; a panic in a child encoder propagates outward,
as unwinding does in Rust.
-/

/-- The CBOR value model, Rust enum CborType. UInt holds a u64 value,
NInt an i64, BStr a byte slice, TStr a UTF-8 string, Arr a slice of
values, and Map the state of a BTreeMap with i64 keys, modelled as an
association list; the BTreeMap invariant (keys strictly increasing) is
carried as a hypothesis where needed, and the list produced by the
model of BTreeMap insertion (btreeOfList below) always satisfies it. -/
inductive CborType where
  | UInt : Nat → CborType
  | NInt : Int → CborType
  | BStr : List Nat → CborType
  | TStr : String → CborType
  | Arr : List CborType → CborType
  | Map : List (Int × CborType) → CborType

/-- Rust common_encode_unsigned. Given a tag and an unsigned value,
returns the encoded bytes, or none when the assert (tag < 8) fails —
the assert fires before any byte is pushed. The Rust match on value
ranges 0...23 / 24...255 / 256...65535 / 65536...4294967295 / _ is an
if-chain here; every expression cast to u8 carries an explicit
percent 256. -/
def common_encode_unsigned (tag : Nat) (value : Nat) : Option (List Nat) :=
  if tag < 8 then
    let shifted_tag := (tag <<< 5) % 256
    some (
      if value ≤ 23 then
        [shifted_tag ||| (value % 256)]
      else if value ≤ 255 then
        [shifted_tag ||| 24, value % 256]
      else if value ≤ 65535 then
        [shifted_tag ||| 25, (value >>> 8) % 256, (value &&& 255) % 256]
      else if value ≤ 4294967295 then
        [shifted_tag ||| 26, (value >>> 24) % 256, ((value >>> 16) &&& 255) % 256,
         ((value >>> 8) &&& 255) % 256, (value &&& 255) % 256]
      else
        [shifted_tag ||| 27, (value >>> 56) % 256, ((value >>> 48) &&& 255) % 256,
         ((value >>> 40) &&& 255) % 256, ((value >>> 32) &&& 255) % 256,
         ((value >>> 24) &&& 255) % 256, ((value >>> 16) &&& 255) % 256,
         ((value >>> 8) &&& 255) % 256, (value &&& 255) % 256])
  else
    none

/-- Rust encode_unsigned: major type 0. -/
def encode_unsigned (unsigned : Nat) : Option (List Nat) :=
  common_encode_unsigned 0 unsigned

/-- Rust encode_negative: major type 1. The assert (negative < 0) is the
none branch; the cast of the i64 value -1 - negative to u64 is the
two's-complement reinterpretation, written percent 2 ^ 64 (Int.emod) then toNat. -/
def encode_negative (negative : Int) : Option (List Nat) :=
  if negative < 0 then
    common_encode_unsigned 1 (((-1 - negative) % (2 ^ 64)).toNat)
  else
    none

/-- Rust encode_bstr: major type 2, length header then the raw bytes. -/
def encode_bstr (bstr : List Nat) : Option (List Nat) :=
  (common_encode_unsigned 2 bstr.length).map (fun header => header ++ bstr)

/-- The UTF-8 bytes of a string, as natural numbers: the model of Rust
String::as_bytes (a Rust String stores exactly the UTF-8 encoding of its
characters). -/
def utf8Bytes (s : String) : List Nat :=
  (s.data.map (fun c => (String.utf8EncodeChar c).map (fun b => b.toNat))).flatten

/-- Rust encode_tstr: major type 3, the UTF-8 byte length then the
UTF-8 bytes. -/
def encode_tstr (tstr : String) : Option (List Nat) :=
  (common_encode_unsigned 3 (utf8Bytes tstr).length).map
    (fun header => header ++ utf8Bytes tstr)

mutual

/-- Rust CborType::serialize: dispatch on the variant. The Arr and Map
cases are the bodies of Rust encode_array and encode_map: length header
first, then each child's own serialization appended in order. -/
def serialize : CborType → Option (List Nat)
  | .UInt unsigned => encode_unsigned unsigned
  | .NInt negative => encode_negative negative
  | .BStr bstr => encode_bstr bstr
  | .TStr tstr => encode_tstr tstr
  | .Arr arr =>
      (common_encode_unsigned 4 arr.length).bind (fun header =>
        (serializeList arr).map (fun body => header ++ body))
  | .Map map =>
      (common_encode_unsigned 5 map.length).bind (fun header =>
        (serializePairs map).map (fun body => header ++ body))

/-- The element loop of Rust encode_array: each element's serialization,
concatenated in order; a panic in any element propagates. -/
def serializeList : List CborType → Option (List Nat)
  | [] => some []
  | e :: rest =>
      (serialize e).bind (fun eb =>
        (serializeList rest).map (fun rb => eb ++ rb))

/-- The pair loop of Rust encode_map: for each (key, value) in the order
the BTreeMap yields them, the key encoded with CborType::NInt(key) when
key < 0 and with CborType::UInt(key as u64) otherwise (those serialize
calls dispatch directly to encode_negative and encode_unsigned), then
the value's serialization. -/
def serializePairs : List (Int × CborType) → Option (List Nat)
  | [] => some []
  | (key, value) :: rest =>
      (if key < 0 then encode_negative key
       else encode_unsigned ((key % (2 ^ 64)).toNat)).bind (fun kb =>
        (serialize value).bind (fun vb =>
          (serializePairs rest).map (fun rb => kb ++ vb ++ rb)))

end

/-- Insertion into the sorted association list modelling BTreeMap:
keeps keys strictly increasing, replaces on an equal key (the standard
last-write-wins semantics of BTreeMap::insert). -/
def btreeInsert (key : Int) (val : CborType) :
    List (Int × CborType) → List (Int × CborType)
  | [] => [(key, val)]
  | (k, v) :: rest =>
      if key < k then (key, val) :: (k, v) :: rest
      else if key = k then (key, val) :: rest
      else (k, v) :: btreeInsert key val rest

/-- Building a BTreeMap by inserting the pairs of a list in order,
starting from the empty map. -/
def btreeOfList (l : List (Int × CborType)) : List (Int × CborType) :=
  l.foldl (fun m kv => btreeInsert kv.1 kv.2 m) []

/-- The number of trailing bytes after the header byte, following the
boundary table of the encoding. -/
def extraBytes (v : Nat) : Nat :=
  if v ≤ 23 then 0
  else if v ≤ 255 then 1
  else if v ≤ 65535 then 2
  else if v ≤ 4294967295 then 4
  else 8

/-- The low five bits of the header byte: the value itself when it is
at most 23, otherwise the escape code 24/25/26/27 matching the number
of trailing bytes. -/
def headerLow (v : Nat) : Nat :=
  if v ≤ 23 then v
  else if v ≤ 255 then 24
  else if v ≤ 65535 then 25
  else if v ≤ 4294967295 then 26
  else 27

/-- The value of a byte list read in big-endian order. -/
def beVal (l : List Nat) : Nat :=
  l.foldl (fun a b => a * 256 + b) 0

theorem headerLow_lt (v : Nat) : headerLow v < 32 := by
  unfold headerLow
  split_ifs <;> omega

theorem or_shift (t : Nat) (ht : t < 8) (x : Nat) (hx : x < 32) :
    ((t <<< 5) % 256) ||| x = t * 32 + x := by
  revert x hx
  have h : ∀ x < 32, ((t <<< 5) % 256) ||| x = t * 32 + x := by
    revert t ht
    decide
  exact fun x hx => h x hx

theorem and255 (x : Nat) : x &&& 255 = x % 256 := by
  have h := Nat.and_pow_two_sub_one_eq_mod x 8
  norm_num at h
  exact h

theorem byte_lt (x : Nat) : x % 256 < 256 :=
  Nat.mod_lt x (by omega)

/-- The byte list produced by common_encode_unsigned under a valid tag:
header byte with the tag in the top three bits and headerLow in the low
five, then extraBytes v trailing bytes carrying v big-endian. -/
theorem common_encode_spec (t v : Nat) (ht : t < 8) (hv : v < 2 ^ 64) :
    ∃ rest, common_encode_unsigned t v = some ((t * 32 + headerLow v) :: rest) ∧
      rest.length = extraBytes v ∧ (∀ b ∈ rest, b < 256) ∧
      beVal rest = (if v ≤ 23 then 0 else v) := by
  have hor := or_shift t ht
  simp only [common_encode_unsigned, if_pos ht]
  by_cases h1 : v ≤ 23
  · refine ⟨[], ?_, by simp [extraBytes, h1], by simp, by simp [beVal, h1]⟩
    have hv256 : v % 256 = v := by omega
    simp [h1, headerLow, hv256, hor v (by omega)]
  · by_cases h2 : v ≤ 255
    · refine ⟨[v % 256], ?_, by simp [extraBytes, h1, h2], ?_, ?_⟩
      · simp [h1, h2, headerLow, hor 24 (by omega)]
      · intro b hb
        simp only [List.mem_singleton] at hb
        subst hb
        exact byte_lt v
      · simp only [beVal, List.foldl, if_neg h1]
        omega
    · by_cases h3 : v ≤ 65535
      · refine ⟨[(v >>> 8) % 256, (v &&& 255) % 256], ?_,
          by simp [extraBytes, h1, h2, h3], ?_, ?_⟩
        · simp [h1, h2, h3, headerLow, hor 25 (by omega)]
        · intro b hb
          simp only [List.mem_cons, List.mem_singleton, List.not_mem_nil, or_false] at hb
          rcases hb with rfl | rfl <;> exact byte_lt _
        · simp only [beVal, List.foldl, Nat.shiftRight_eq_div_pow, and255]
          simp [h1]
          omega
      · by_cases h4 : v ≤ 4294967295
        · refine ⟨[(v >>> 24) % 256, ((v >>> 16) &&& 255) % 256,
            ((v >>> 8) &&& 255) % 256, (v &&& 255) % 256], ?_,
            by simp [extraBytes, h1, h2, h3, h4], ?_, ?_⟩
          · simp [h1, h2, h3, h4, headerLow, hor 26 (by omega)]
          · intro b hb
            simp only [List.mem_cons, List.mem_singleton, List.not_mem_nil,
              or_false] at hb
            rcases hb with rfl | rfl | rfl | rfl <;> exact byte_lt _
          · simp only [beVal, List.foldl, Nat.shiftRight_eq_div_pow, and255]
            simp [h1]
            omega
        · refine ⟨[(v >>> 56) % 256, ((v >>> 48) &&& 255) % 256,
            ((v >>> 40) &&& 255) % 256, ((v >>> 32) &&& 255) % 256,
            ((v >>> 24) &&& 255) % 256, ((v >>> 16) &&& 255) % 256,
            ((v >>> 8) &&& 255) % 256, (v &&& 255) % 256], ?_,
            by simp [extraBytes, h1, h2, h3, h4], ?_, ?_⟩
          · simp [h1, h2, h3, h4, headerLow, hor 27 (by omega)]
          · intro b hb
            simp only [List.mem_cons, List.mem_singleton, List.not_mem_nil,
              or_false] at hb
            rcases hb with rfl | rfl | rfl | rfl | rfl | rfl | rfl | rfl <;>
              exact byte_lt _
          · simp only [beVal, List.foldl, Nat.shiftRight_eq_div_pow, and255]
            simp [h1]
            omega

/-- C1: for every tag below 8 and every 64-bit magnitude v,
common_encode_unsigned produces exactly 1 + extraBytes v bytes: a header
byte whose high three bits equal the tag and whose low five bits equal v
when v ≤ 23 and otherwise the escape code matching the trailing byte
count, followed by extraBytes v trailing bytes that carry v in
big-endian order; and the five concrete vectors for serialize on
unsigned integers hold. -/
theorem C1_unsigned_encoding (t v : Nat) (ht : t < 8) (hv : v < 2 ^ 64) :
    (∃ bytes, common_encode_unsigned t v = some bytes ∧
      bytes.length = 1 + extraBytes v ∧
      bytes.head? = some (t * 32 + headerLow v) ∧
      (t * 32 + headerLow v) / 32 = t ∧
      (t * 32 + headerLow v) % 32 = headerLow v ∧
      bytes.tail.length = extraBytes v ∧
      (∀ b ∈ bytes.tail, b < 256) ∧
      (24 ≤ v → beVal bytes.tail = v) ∧
      (v ≤ 23 → bytes.tail = [])) ∧
    serialize (.UInt 0) = some [0x00] ∧
    serialize (.UInt 23) = some [0x17] ∧
    serialize (.UInt 24) = some [0x18, 0x18] ∧
    serialize (.UInt 1000000) = some [0x1a, 0x00, 0x0f, 0x42, 0x40] ∧
    serialize (.UInt 18446744073709551615) =
      some [0x1b, 0xff, 0xff, 0xff, 0xff, 0xff, 0xff, 0xff, 0xff] := by
  refine ⟨?_, by decide, by decide, by decide, by decide, by decide⟩
  obtain ⟨rest, henc, hlen, hbytes, hbe⟩ := common_encode_spec t v ht hv
  have hl := headerLow_lt v
  refine ⟨(t * 32 + headerLow v) :: rest, henc, by simp [hlen]; omega,
    by simp, by omega, by omega, by simpa using hlen,
    by simpa using hbytes, ?_, ?_⟩
  · intro h24
    rw [List.tail_cons, hbe, if_neg (by omega)]
  · intro h23
    rw [List.tail_cons]
    have : rest.length = 0 := by
      rw [hlen]
      simp [extraBytes, h23]
    exact List.length_eq_zero.mp this

/-- Witness for C1 at tag 3 and value 1000000. -/
theorem C1_unsigned_encoding_witness :
    (3 : Nat) < 8 ∧ (1000000 : Nat) < 2 ^ 64 ∧
    ((∃ bytes, common_encode_unsigned 3 1000000 = some bytes ∧
      bytes.length = 1 + extraBytes 1000000 ∧
      bytes.head? = some (3 * 32 + headerLow 1000000) ∧
      (3 * 32 + headerLow 1000000) / 32 = 3 ∧
      (3 * 32 + headerLow 1000000) % 32 = headerLow 1000000 ∧
      bytes.tail.length = extraBytes 1000000 ∧
      (∀ b ∈ bytes.tail, b < 256) ∧
      (24 ≤ 1000000 → beVal bytes.tail = 1000000) ∧
      (1000000 ≤ 23 → bytes.tail = [])) ∧
    serialize (.UInt 0) = some [0x00] ∧
    serialize (.UInt 23) = some [0x17] ∧
    serialize (.UInt 24) = some [0x18, 0x18] ∧
    serialize (.UInt 1000000) = some [0x1a, 0x00, 0x0f, 0x42, 0x40] ∧
    serialize (.UInt 18446744073709551615) =
      some [0x1b, 0xff, 0xff, 0xff, 0xff, 0xff, 0xff, 0xff, 0xff]) :=
  ⟨by decide, by decide,
   C1_unsigned_encoding 3 1000000 (by decide) (by decide)⟩

/-- The trailing bytes of the encoding of v: the same for every tag. -/
def cbTail (v : Nat) : List Nat :=
  if v ≤ 23 then []
  else if v ≤ 255 then [v % 256]
  else if v ≤ 65535 then [(v >>> 8) % 256, (v &&& 255) % 256]
  else if v ≤ 4294967295 then
    [(v >>> 24) % 256, ((v >>> 16) &&& 255) % 256,
     ((v >>> 8) &&& 255) % 256, (v &&& 255) % 256]
  else
    [(v >>> 56) % 256, ((v >>> 48) &&& 255) % 256,
     ((v >>> 40) &&& 255) % 256, ((v >>> 32) &&& 255) % 256,
     ((v >>> 24) &&& 255) % 256, ((v >>> 16) &&& 255) % 256,
     ((v >>> 8) &&& 255) % 256, (v &&& 255) % 256]

/-- Closed form of common_encode_unsigned under a valid tag: the header
byte carries the tag in the high bits, and the trailing bytes do not
depend on the tag at all. -/
theorem common_encode_eq_tail (t v : Nat) (ht : t < 8) :
    common_encode_unsigned t v = some ((t * 32 + headerLow v) :: cbTail v) := by
  have hor := or_shift t ht
  simp only [common_encode_unsigned, if_pos ht, cbTail, headerLow]
  by_cases h1 : v ≤ 23
  · have hv256 : v % 256 = v := by omega
    simp [h1, hv256, hor v (by omega)]
  · by_cases h2 : v ≤ 255
    · simp [h1, h2, hor 24 (by omega)]
    · by_cases h3 : v ≤ 65535
      · simp [h1, h2, h3, hor 25 (by omega)]
      · by_cases h4 : v ≤ 4294967295
        · simp [h1, h2, h3, h4, hor 26 (by omega)]
        · simp [h1, h2, h3, h4, hor 27 (by omega)]

theorem common_isSome (t v : Nat) (ht : t < 8) :
    (common_encode_unsigned t v).isSome := by
  rw [common_encode_eq_tail t v ht]
  rfl

/-- C3: for every strictly negative i64 value n, the encoding of
NInt n is byte-identical to the encoding of UInt (-1 - n) except that
the header byte's top three tag bits are 1 instead of 0 (an offset of
32); and the concrete vectors for -1 and -1000 hold. -/
theorem C3_negative_vs_unsigned (n : Int) (hmin : -(2 ^ 63) ≤ n) (hneg : n < 0) :
    (∃ h rest,
      serialize (.UInt (((-1 - n) % (2 ^ 64)).toNat)) = some (h :: rest) ∧
      serialize (.NInt n) = some ((h + 32) :: rest) ∧
      (((-1 - n) % (2 ^ 64)).toNat : Int) = -1 - n ∧
      h / 32 = 0 ∧ (h + 32) / 32 = 1 ∧ (h + 32) % 32 = h % 32) ∧
    serialize (.NInt (-1)) = some [0x20] ∧
    serialize (.NInt (-1000)) = some [0x39, 0x03, 0xe7] := by
  refine ⟨?_, by decide, by decide⟩
  have hlow := headerLow_lt (((-1 - n) % (2 ^ 64)).toNat)
  refine ⟨headerLow (((-1 - n) % (2 ^ 64)).toNat),
    cbTail (((-1 - n) % (2 ^ 64)).toNat), ?_, ?_, by omega, by omega,
    by omega, by omega⟩
  · simp only [serialize, encode_unsigned]
    rw [common_encode_eq_tail 0 _ (by omega)]
    norm_num
  · simp only [serialize, encode_negative, if_pos hneg]
    rw [common_encode_eq_tail 1 _ (by omega)]
    norm_num
    rw [Nat.add_comm]

/-- Witness for C3 at n = -1000. -/
theorem C3_negative_vs_unsigned_witness :
    -(2 ^ 63) ≤ (-1000 : Int) ∧ (-1000 : Int) < 0 ∧
    ((∃ h rest,
      serialize (.UInt (((-1 - (-1000 : Int)) % (2 ^ 64)).toNat)) =
        some (h :: rest) ∧
      serialize (.NInt (-1000)) = some ((h + 32) :: rest) ∧
      (((-1 - (-1000 : Int)) % (2 ^ 64)).toNat : Int) = -1 - (-1000) ∧
      h / 32 = 0 ∧ (h + 32) / 32 = 1 ∧ (h + 32) % 32 = h % 32) ∧
    serialize (.NInt (-1)) = some [0x20] ∧
    serialize (.NInt (-1000)) = some [0x39, 0x03, 0xe7]) :=
  ⟨by decide, by decide, C3_negative_vs_unsigned (-1000) (by decide) (by decide)⟩

/-- C10: the whole strictly negative i64 range encodes without overflow:
for i64-min ≤ n ≤ -1 the transform -1 - n stays within the i64 range
(equal to i64-max exactly at n = i64-min), the u64 cast is the identity
on it, the magnitude handed to the primitive is the absolute value of n
minus one, and serialization succeeds. -/
theorem C10_negative_no_overflow (n : Int) (hmin : -(2 ^ 63) ≤ n) (hneg : n < 0) :
    (-1 - n ≤ 2 ^ 63 - 1) ∧ (0 ≤ -1 - n) ∧
    (n = -(2 ^ 63) → -1 - n = 2 ^ 63 - 1) ∧
    ((-1 - n) % (2 ^ 64) = -1 - n) ∧
    (((-1 - n) % (2 ^ 64)).toNat = n.natAbs - 1) ∧
    (serialize (.NInt n)).isSome := by
  refine ⟨by omega, by omega, by omega, by omega, by omega, ?_⟩
  simp only [serialize, encode_negative, if_pos hneg]
  exact common_isSome 1 _ (by omega)

/-- Witness for C10 at n = i64-min. -/
theorem C10_negative_no_overflow_witness :
    -(2 ^ 63) ≤ (-(2 ^ 63) : Int) ∧ (-(2 ^ 63) : Int) < 0 ∧
    ((-1 - (-(2 ^ 63) : Int) ≤ 2 ^ 63 - 1) ∧ (0 ≤ -1 - (-(2 ^ 63) : Int)) ∧
    ((-(2 ^ 63) : Int) = -(2 ^ 63) → -1 - (-(2 ^ 63) : Int) = 2 ^ 63 - 1) ∧
    ((-1 - (-(2 ^ 63) : Int)) % (2 ^ 64) = -1 - (-(2 ^ 63) : Int)) ∧
    (((-1 - (-(2 ^ 63) : Int)) % (2 ^ 64)).toNat =
      (-(2 ^ 63) : Int).natAbs - 1) ∧
    (serialize (.NInt (-(2 ^ 63)))).isSome) :=
  ⟨by decide, by decide,
   C10_negative_no_overflow (-(2 ^ 63)) (by decide) (by decide)⟩

theorem serializeList_eq_mapM (es : List CborType) :
    serializeList es = (es.mapM serialize).map List.flatten := by
  induction es with
  | nil => rfl
  | cons e rest ih =>
    simp only [serializeList, ih, List.mapM_cons]
    cases serialize e <;> cases rest.mapM serialize <;> simp

/-- C4: a byte string serializes to the tag-2 header for its length
followed by its bytes unchanged and in order; a text string serializes
to the tag-3 header for its UTF-8 byte length (not its character count)
followed by its UTF-8 bytes unchanged; together with the concrete
vectors, and the one-character three-byte string showing that the
length is counted in UTF-8 bytes. -/
theorem C4_string_encoding :
    (∀ b : List Nat, serialize (.BStr b) =
      some ((2 * 32 + headerLow b.length) :: cbTail b.length ++ b)) ∧
    (∀ s : String, serialize (.TStr s) =
      some ((3 * 32 + headerLow (utf8Bytes s).length) ::
        cbTail (utf8Bytes s).length ++ utf8Bytes s)) ∧
    serialize (.BStr []) = some [0x40] ∧
    serialize (.TStr "IETF") = some [0x64, 0x49, 0x45, 0x54, 0x46] ∧
    (utf8Bytes "水").length = 3 ∧ "水".data.length = 1 := by
  refine ⟨?_, ?_, by decide, by decide, by decide, by decide⟩
  · intro b
    simp only [serialize, encode_bstr]
    rw [common_encode_eq_tail 2 _ (by omega)]
    simp
  · intro s
    simp only [serialize, encode_tstr]
    rw [common_encode_eq_tail 3 _ (by omega)]
    simp

/-- C5: an array serializes to the tag-4 header for its element count
followed by each element's own serialization concatenated exactly in the
given order (a failure in any element propagates); with the concrete
vectors for the empty array and the array of the unsigned integers
1 through 25. -/
theorem C5_array_encoding :
    (∀ es : List CborType, serialize (.Arr es) =
      (es.mapM serialize).map (fun parts =>
        (4 * 32 + headerLow es.length) :: cbTail es.length ++ parts.flatten)) ∧
    serialize (.Arr []) = some [0x80] ∧
    serialize (.Arr ((List.range 25).map (fun i => .UInt (i + 1)))) =
      some [0x98, 0x19, 0x01, 0x02, 0x03, 0x04, 0x05, 0x06, 0x07, 0x08, 0x09,
            0x0a, 0x0b, 0x0c, 0x0d, 0x0e, 0x0f, 0x10, 0x11, 0x12, 0x13, 0x14,
            0x15, 0x16, 0x17, 0x18, 0x18, 0x18, 0x19] := by
  refine ⟨?_, by decide, by decide⟩
  intro es
  simp only [serialize]
  rw [common_encode_eq_tail 4 _ (by omega), serializeList_eq_mapM]
  cases es.mapM serialize <;> simp

theorem mem_btreeInsert (b : Int × CborType) (key : Int) (val : CborType)
    (l : List (Int × CborType)) (hb : b ∈ btreeInsert key val l) :
    b = (key, val) ∨ b ∈ l := by
  induction l with
  | nil =>
    simp only [btreeInsert, List.mem_singleton] at hb
    exact Or.inl hb
  | cons p rest ih =>
    obtain ⟨k, v⟩ := p
    simp only [btreeInsert] at hb
    by_cases h1 : key < k
    · rw [if_pos h1] at hb
      rcases List.mem_cons.mp hb with rfl | hb
      · exact Or.inl rfl
      · exact Or.inr hb
    · rw [if_neg h1] at hb
      by_cases h2 : key = k
      · rw [if_pos h2] at hb
        rcases List.mem_cons.mp hb with rfl | hb
        · exact Or.inl rfl
        · exact Or.inr (List.mem_cons_of_mem _ hb)
      · rw [if_neg h2] at hb
        rcases List.mem_cons.mp hb with rfl | hb
        · exact Or.inr (List.mem_cons_self _ _)
        · rcases ih hb with h | h
          · exact Or.inl h
          · exact Or.inr (List.mem_cons_of_mem _ h)

theorem btreeInsert_pairwise (key : Int) (val : CborType)
    (l : List (Int × CborType))
    (h : List.Pairwise (fun a b => a.1 < b.1) l) :
    List.Pairwise (fun a b => a.1 < b.1) (btreeInsert key val l) := by
  induction l with
  | nil => simp [btreeInsert]
  | cons p rest ih =>
    obtain ⟨k, v⟩ := p
    rw [List.pairwise_cons] at h
    obtain ⟨hk, hrest⟩ := h
    simp only [btreeInsert]
    by_cases h1 : key < k
    · rw [if_pos h1]
      refine List.Pairwise.cons ?_ (List.Pairwise.cons hk hrest)
      intro b hb
      rcases List.mem_cons.mp hb with rfl | hb
      · exact h1
      · exact lt_trans h1 (hk b hb)
    · rw [if_neg h1]
      by_cases h2 : key = k
      · rw [if_pos h2]
        subst h2
        exact List.Pairwise.cons hk hrest
      · rw [if_neg h2]
        refine List.Pairwise.cons ?_ (ih hrest)
        intro b hb
        rcases mem_btreeInsert b key val rest hb with rfl | hb
        · simp only
          omega
        · exact hk b hb

theorem btreeInsert_perm (key : Int) (val : CborType)
    (l : List (Int × CborType)) (h : key ∉ l.map Prod.fst) :
    (btreeInsert key val l).Perm ((key, val) :: l) := by
  induction l with
  | nil => exact List.Perm.refl _
  | cons p rest ih =>
    obtain ⟨k, v⟩ := p
    simp only [List.map_cons, List.mem_cons] at h
    push_neg at h
    obtain ⟨hne, hnotin⟩ := h
    simp only [btreeInsert]
    by_cases h1 : key < k
    · rw [if_pos h1]
    · rw [if_neg h1, if_neg hne]
      exact ((ih hnotin).cons (k, v)).trans (List.Perm.swap (key, val) (k, v) rest)

theorem btreeOfList_aux (l : List (Int × CborType)) :
    ∀ acc : List (Int × CborType),
      (acc.map Prod.fst ++ l.map Prod.fst).Nodup →
      List.Pairwise (fun a b => a.1 < b.1) acc →
      List.Pairwise (fun a b => a.1 < b.1)
        (l.foldl (fun m kv => btreeInsert kv.1 kv.2 m) acc) ∧
      (l.foldl (fun m kv => btreeInsert kv.1 kv.2 m) acc).Perm (acc ++ l) := by
  induction l with
  | nil =>
    intro acc hnd hacc
    simp [hacc]
  | cons a l ih =>
    intro acc hnd hacc
    obtain ⟨key, val⟩ := a
    simp only [List.foldl_cons]
    have hkey_not : key ∉ acc.map Prod.fst := by
      rw [List.nodup_append] at hnd
      intro hk
      exact hnd.2.2 hk (List.mem_cons_self _ _)
    have hperm_ins : (btreeInsert key val acc).Perm ((key, val) :: acc) :=
      btreeInsert_perm key val acc hkey_not
    have hpw_ins := btreeInsert_pairwise key val acc hacc
    have p1 : ((btreeInsert key val acc).map Prod.fst ++ l.map Prod.fst).Perm
        (acc.map Prod.fst ++ ((key, val) :: l).map Prod.fst) := by
      refine ((hperm_ins.map Prod.fst).append_right _).trans ?_
      simpa using List.perm_middle.symm
    have hnd' := p1.symm.nodup hnd
    obtain ⟨hpw, hperm⟩ := ih (btreeInsert key val acc) hnd' hpw_ins
    refine ⟨hpw, hperm.trans ((hperm_ins.append_right l).trans ?_)⟩
    simpa using List.perm_middle.symm

/-- The BTreeMap built from any insertion list has strictly increasing
keys, and, when the inserted keys are distinct, holds exactly the
inserted pairs. -/
theorem btreeOfList_sorted_perm (l : List (Int × CborType))
    (hnd : (l.map Prod.fst).Nodup) :
    List.Pairwise (fun a b => a.1 < b.1) (btreeOfList l) ∧
    (btreeOfList l).Perm l := by
  have h := btreeOfList_aux l [] (by simpa using hnd) List.Pairwise.nil
  simpa [btreeOfList] using h

/-- Two insertion orders of the same distinct-key pairs build the same
BTreeMap. -/
theorem btreeOfList_perm_eq (l₁ l₂ : List (Int × CborType))
    (hnd : (l₁.map Prod.fst).Nodup) (hp : l₁.Perm l₂) :
    btreeOfList l₁ = btreeOfList l₂ := by
  have hnd₂ : (l₂.map Prod.fst).Nodup := (hp.map Prod.fst).nodup hnd
  obtain ⟨hs₁, hp₁⟩ := btreeOfList_sorted_perm l₁ hnd
  obtain ⟨hs₂, hp₂⟩ := btreeOfList_sorted_perm l₂ hnd₂
  haveI : IsAntisymm (Int × CborType) (fun a b => a.1 < b.1) :=
    ⟨fun a b h1 h2 => absurd h2 (by omega)⟩
  exact List.eq_of_perm_of_sorted (hp₁.trans (hp.trans hp₂.symm)) hs₁ hs₂

/-- The bytes one map entry contributes: the key serialized as NInt when
negative and as UInt (cast to u64) otherwise, then the value. -/
def encodePair (kv : Int × CborType) : Option (List Nat) :=
  (if kv.1 < 0 then serialize (.NInt kv.1)
   else serialize (.UInt ((kv.1 % (2 ^ 64)).toNat))).bind (fun kb =>
    (serialize kv.2).map (fun vb => kb ++ vb))

theorem serializePairs_eq_mapM (m : List (Int × CborType)) :
    serializePairs m = (m.mapM encodePair).map List.flatten := by
  induction m with
  | nil => rfl
  | cons kv rest ih =>
    obtain ⟨key, value⟩ := kv
    simp only [serializePairs, ih, List.mapM_cons, encodePair]
    by_cases hk : key < 0 <;>
      [simp only [if_pos hk, serialize]; simp only [if_neg hk, serialize]] <;>
      cases encode_negative key <;>
      cases encode_unsigned ((key % (2 ^ 64)).toNat) <;>
      cases serialize value <;>
      cases rest.mapM encodePair <;>
      simp

/-- C2: a map built by inserting pairs with distinct i64 keys serializes
as the tag-5 header for the pair count followed, for each pair visited
in strictly ascending signed numeric key order (whatever the insertion
order), by the key encoded as NInt when negative and as UInt otherwise,
then the value; with the concrete vectors for the empty map and the map
20 to 10, 10 to 20, 15 to 15. -/
theorem C2_map_encoding (l : List (Int × CborType))
    (hnd : (l.map Prod.fst).Nodup) :
    (List.Pairwise (fun a b => a.1 < b.1) (btreeOfList l) ∧
     (btreeOfList l).Perm l ∧
     serialize (.Map (btreeOfList l)) =
       ((btreeOfList l).mapM encodePair).map (fun parts =>
         (5 * 32 + headerLow (btreeOfList l).length) ::
           cbTail (btreeOfList l).length ++ parts.flatten)) ∧
    serialize (.Map (btreeOfList [])) = some [0xa0] ∧
    serialize (.Map (btreeOfList
        [(20, .UInt 10), (10, .UInt 20), (15, .UInt 15)])) =
      some [0xa3, 0x0a, 0x14, 0x0f, 0x0f, 0x14, 0x0a] := by
  refine ⟨?_, by decide, by decide⟩
  obtain ⟨hpw, hperm⟩ := btreeOfList_sorted_perm l hnd
  refine ⟨hpw, hperm, ?_⟩
  simp only [serialize]
  rw [common_encode_eq_tail 5 _ (by omega), serializePairs_eq_mapM]
  cases (btreeOfList l).mapM encodePair <;> simp

/-- Witness for C2 at the three-pair insertion list of the concrete
vector. -/
theorem C2_map_encoding_witness :
    (([(20, .UInt 10), (10, .UInt 20), (15, .UInt 15)] :
        List (Int × CborType)).map Prod.fst).Nodup ∧
    ((List.Pairwise (fun a b => a.1 < b.1) (btreeOfList
        [(20, .UInt 10), (10, .UInt 20), (15, .UInt 15)]) ∧
      (btreeOfList [(20, .UInt 10), (10, .UInt 20), (15, .UInt 15)]).Perm
        [(20, .UInt 10), (10, .UInt 20), (15, .UInt 15)] ∧
      serialize (.Map (btreeOfList
          [(20, .UInt 10), (10, .UInt 20), (15, .UInt 15)])) =
        ((btreeOfList
            [(20, .UInt 10), (10, .UInt 20), (15, .UInt 15)]).mapM
              encodePair).map (fun parts =>
          (5 * 32 + headerLow (btreeOfList
              [(20, .UInt 10), (10, .UInt 20), (15, .UInt 15)]).length) ::
            cbTail (btreeOfList
              [(20, .UInt 10), (10, .UInt 20), (15, .UInt 15)]).length ++
              parts.flatten)) ∧
    serialize (.Map (btreeOfList [])) = some [0xa0] ∧
    serialize (.Map (btreeOfList
        [(20, .UInt 10), (10, .UInt 20), (15, .UInt 15)])) =
      some [0xa3, 0x0a, 0x14, 0x0f, 0x0f, 0x14, 0x0a]) :=
  ⟨by decide,
   C2_map_encoding [(20, .UInt 10), (10, .UInt 20), (15, .UInt 15)]
     (by decide)⟩

/-- C7: serialization is a pure function of the value tree: equal trees
give equal bytes, and a map built from the same distinct-key pairs in
any two insertion orders serializes identically; with a concrete
three-pair instance of insertion-order independence. -/
theorem C7_determinism :
    (∀ v : CborType, serialize v = serialize v) ∧
    (∀ l₁ l₂ : List (Int × CborType), (l₁.map Prod.fst).Nodup →
      l₁.Perm l₂ →
      serialize (.Map (btreeOfList l₁)) = serialize (.Map (btreeOfList l₂))) ∧
    serialize (.Map (btreeOfList
        [(20, .UInt 10), (10, .UInt 20), (15, .UInt 15)])) =
      serialize (.Map (btreeOfList
        [(10, .UInt 20), (15, .UInt 15), (20, .UInt 10)])) :=
  ⟨fun _ => rfl,
   fun l₁ l₂ hnd hp => by rw [btreeOfList_perm_eq l₁ l₂ hnd hp],
   by decide⟩

mutual

/-- Well-formedness of a value tree: every NInt payload is strictly
negative, so the precondition of encode_negative holds everywhere. -/
def wellFormed : CborType → Prop
  | .UInt _ => True
  | .NInt n => n < 0
  | .BStr _ => True
  | .TStr _ => True
  | .Arr a => wellFormedList a
  | .Map m => wellFormedPairs m

def wellFormedList : List CborType → Prop
  | [] => True
  | e :: rest => wellFormed e ∧ wellFormedList rest

def wellFormedPairs : List (Int × CborType) → Prop
  | [] => True
  | (_, v) :: rest => wellFormed v ∧ wellFormedPairs rest

end

mutual

theorem serialize_isSome_of_wellFormed (v : CborType) (h : wellFormed v) :
    (serialize v).isSome := by
  cases v with
  | UInt u =>
    simp only [serialize, encode_unsigned]
    exact common_isSome 0 u (by omega)
  | NInt n =>
    simp only [wellFormed] at h
    simp only [serialize, encode_negative, if_pos h]
    exact common_isSome 1 _ (by omega)
  | BStr b =>
    simp only [serialize, encode_bstr]
    rw [common_encode_eq_tail 2 _ (by omega)]
    rfl
  | TStr s =>
    simp only [serialize, encode_tstr]
    rw [common_encode_eq_tail 3 _ (by omega)]
    rfl
  | Arr a =>
    simp only [wellFormed] at h
    simp only [serialize]
    rw [common_encode_eq_tail 4 _ (by omega)]
    obtain ⟨bs, hbs⟩ :=
      Option.isSome_iff_exists.mp (serializeList_isSome_of_wellFormed a h)
    rw [hbs]
    rfl
  | Map m =>
    simp only [wellFormed] at h
    simp only [serialize]
    rw [common_encode_eq_tail 5 _ (by omega)]
    obtain ⟨bs, hbs⟩ :=
      Option.isSome_iff_exists.mp (serializePairs_isSome_of_wellFormed m h)
    rw [hbs]
    rfl

theorem serializeList_isSome_of_wellFormed (l : List CborType)
    (h : wellFormedList l) : (serializeList l).isSome := by
  cases l with
  | nil => rfl
  | cons e rest =>
    simp only [wellFormedList] at h
    obtain ⟨b1, hb1⟩ :=
      Option.isSome_iff_exists.mp (serialize_isSome_of_wellFormed e h.1)
    obtain ⟨b2, hb2⟩ :=
      Option.isSome_iff_exists.mp (serializeList_isSome_of_wellFormed rest h.2)
    simp only [serializeList]
    rw [hb1, hb2]
    rfl

theorem serializePairs_isSome_of_wellFormed (m : List (Int × CborType))
    (h : wellFormedPairs m) : (serializePairs m).isSome := by
  cases m with
  | nil => rfl
  | cons kv rest =>
    obtain ⟨key, value⟩ := kv
    simp only [wellFormedPairs] at h
    obtain ⟨b1, hb1⟩ :=
      Option.isSome_iff_exists.mp (serialize_isSome_of_wellFormed value h.1)
    obtain ⟨b2, hb2⟩ :=
      Option.isSome_iff_exists.mp
        (serializePairs_isSome_of_wellFormed rest h.2)
    simp only [serializePairs]
    rw [hb1, hb2]
    by_cases hk : key < 0
    · rw [if_pos hk, encode_negative, if_pos hk,
        common_encode_eq_tail 1 _ (by omega)]
      rfl
    · rw [if_neg hk, encode_unsigned, common_encode_eq_tail 0 _ (by omega)]
      rfl

end

/-- C6: the two contract preconditions are unrecoverable assertion
failures, not error values: any tag of 8 or more makes the primitive
fail before emitting a byte, any nonnegative input makes
encode_negative fail before emitting a byte; under the preconditions
(tag below 8, input strictly negative) neither assertion can fire; a
well-formed tree always serializes; and every serialization starts with
a header whose major-type tag is between 0 and 5. -/
theorem C6_assertions :
    (∀ tag value : Nat, 8 ≤ tag → common_encode_unsigned tag value = none) ∧
    (∀ tag value : Nat, tag < 8 → (common_encode_unsigned tag value).isSome) ∧
    (∀ n : Int, 0 ≤ n → encode_negative n = none) ∧
    (∀ n : Int, n < 0 → (encode_negative n).isSome) ∧
    (∀ v : CborType, wellFormed v → (serialize v).isSome) ∧
    (∀ (v : CborType) (bytes : List Nat), serialize v = some bytes →
      ∃ hd rest, bytes = hd :: rest ∧ hd / 32 ≤ 5) := by
  refine ⟨?_, ?_, ?_, ?_, serialize_isSome_of_wellFormed, ?_⟩
  · intro tag value h
    rw [common_encode_unsigned, if_neg (by omega)]
  · intro tag value h
    exact common_isSome tag value h
  · intro n h
    rw [encode_negative, if_neg (by omega)]
  · intro n h
    rw [encode_negative, if_pos h]
    exact common_isSome 1 _ (by omega)
  · intro v bytes hs
    cases v with
    | UInt u =>
      simp only [serialize, encode_unsigned,
        common_encode_eq_tail 0 u (by omega), Option.some_inj] at hs
      refine ⟨_, _, hs.symm, ?_⟩
      have := headerLow_lt u
      omega
    | NInt n =>
      simp only [serialize, encode_negative] at hs
      by_cases hn : n < 0
      · rw [if_pos hn, common_encode_eq_tail 1 _ (by omega),
          Option.some_inj] at hs
        refine ⟨_, _, hs.symm, ?_⟩
        have := headerLow_lt (((-1 - n) % (2 ^ 64)).toNat)
        omega
      · rw [if_neg hn] at hs
        exact absurd hs (by simp)
    | BStr b =>
      simp only [serialize, encode_bstr,
        common_encode_eq_tail 2 _ (by omega), Option.map_some', Option.some_inj] at hs
      refine ⟨_, _, by rw [← hs]; rfl, ?_⟩
      have := headerLow_lt b.length
      omega
    | TStr s =>
      simp only [serialize, encode_tstr,
        common_encode_eq_tail 3 _ (by omega), Option.map_some', Option.some_inj] at hs
      refine ⟨_, _, by rw [← hs]; rfl, ?_⟩
      have := headerLow_lt (utf8Bytes s).length
      omega
    | Arr a =>
      simp only [serialize, common_encode_eq_tail 4 _ (by omega),
        Option.some_bind] at hs
      cases hl : serializeList a with
      | none => rw [hl] at hs; exact absurd hs (by simp)
      | some body =>
        rw [hl, Option.map_some', Option.some_inj] at hs
        refine ⟨_, _, by rw [← hs]; rfl, ?_⟩
        have := headerLow_lt a.length
        omega
    | Map m =>
      simp only [serialize, common_encode_eq_tail 5 _ (by omega),
        Option.some_bind] at hs
      cases hl : serializePairs m with
      | none => rw [hl] at hs; exact absurd hs (by simp)
      | some body =>
        rw [hl, Option.map_some', Option.some_inj] at hs
        refine ⟨_, _, by rw [← hs]; rfl, ?_⟩
        have := headerLow_lt m.length
        omega

mutual

/-- Nesting depth of a value tree: leaves count 1, arrays and maps one
more than their deepest child. -/
def depth : CborType → Nat
  | .UInt _ => 1
  | .NInt _ => 1
  | .BStr _ => 1
  | .TStr _ => 1
  | .Arr a => depthList a + 1
  | .Map m => depthPairs m + 1

def depthList : List CborType → Nat
  | [] => 0
  | e :: rest => max (depth e) (depthList rest)

def depthPairs : List (Int × CborType) → Nat
  | [] => 0
  | (_, v) :: rest => max (depth v) (depthPairs rest)

end

mutual

/-- serialize with an explicit recursion-depth budget: each step into a
child consumes one unit of fuel, and exhausted fuel aborts. -/
def serializeFuel : Nat → CborType → Option (List Nat)
  | 0, _ => none
  | _ + 1, .UInt unsigned => encode_unsigned unsigned
  | _ + 1, .NInt negative => encode_negative negative
  | _ + 1, .BStr bstr => encode_bstr bstr
  | _ + 1, .TStr tstr => encode_tstr tstr
  | fuel + 1, .Arr arr =>
      (common_encode_unsigned 4 arr.length).bind (fun header =>
        (serializeListFuel fuel arr).map (fun body => header ++ body))
  | fuel + 1, .Map map =>
      (common_encode_unsigned 5 map.length).bind (fun header =>
        (serializePairsFuel fuel map).map (fun body => header ++ body))

def serializeListFuel : Nat → List CborType → Option (List Nat)
  | _, [] => some []
  | fuel, e :: rest =>
      (serializeFuel fuel e).bind (fun eb =>
        (serializeListFuel fuel rest).map (fun rb => eb ++ rb))

def serializePairsFuel : Nat → List (Int × CborType) → Option (List Nat)
  | _, [] => some []
  | fuel, (key, value) :: rest =>
      (if key < 0 then encode_negative key
       else encode_unsigned ((key % (2 ^ 64)).toNat)).bind (fun kb =>
        (serializeFuel fuel value).bind (fun vb =>
          (serializePairsFuel fuel rest).map (fun rb => kb ++ vb ++ rb)))

end

mutual

theorem serializeFuel_eq (fuel : Nat) (v : CborType) (h : depth v ≤ fuel) :
    serializeFuel fuel v = serialize v := by
  cases fuel with
  | zero =>
    exfalso
    cases v <;> simp [depth] at h
  | succ f =>
    cases v with
    | UInt u => rfl
    | NInt n => rfl
    | BStr b => rfl
    | TStr s => rfl
    | Arr a =>
      simp only [depth] at h
      simp only [serializeFuel, serialize,
        serializeListFuel_eq f a (by omega)]
    | Map m =>
      simp only [depth] at h
      simp only [serializeFuel, serialize,
        serializePairsFuel_eq f m (by omega)]

theorem serializeListFuel_eq (fuel : Nat) (l : List CborType)
    (h : depthList l ≤ fuel) :
    serializeListFuel fuel l = serializeList l := by
  cases l with
  | nil => rfl
  | cons e rest =>
    simp only [depthList] at h
    simp only [serializeListFuel, serializeList,
      serializeFuel_eq fuel e (by omega),
      serializeListFuel_eq fuel rest (by omega)]

theorem serializePairsFuel_eq (fuel : Nat) (l : List (Int × CborType))
    (h : depthPairs l ≤ fuel) :
    serializePairsFuel fuel l = serializePairs l := by
  cases l with
  | nil => rfl
  | cons kv rest =>
    obtain ⟨key, value⟩ := kv
    simp only [depthPairs] at h
    simp only [serializePairsFuel, serializePairs,
      serializeFuel_eq fuel value (by omega),
      serializePairsFuel_eq fuel rest (by omega)]

end

/-- C8: the mutual recursion of serialize is well founded: the encoder
is a total function, and the recursion depth it needs is bounded by the
nesting depth of the tree — running it with exactly that much fuel
already yields the same result as the unbounded function, on every
finite value tree. -/
theorem C8_termination :
    ∀ v : CborType, serializeFuel (depth v) v = serialize v ∧
      ∀ fuel : Nat, depth v ≤ fuel → serializeFuel fuel v = serialize v :=
  fun v =>
    ⟨serializeFuel_eq (depth v) v (Nat.le_refl _),
     fun fuel h => serializeFuel_eq fuel v h⟩

/-- A digest algorithm selector; only SHA-256 is supported. -/
inductive DigestAlgorithm where
  | SHA256

/-- Supported key types: elliptic-curve and RSA. -/
inductive KeyType where
  | EC
  | RSA

/-- Rust struct SignedDigest: digest bytes, algorithm, signature bytes. -/
structure SignedDigest where
  digest : List Nat
  digest_algorithm : DigestAlgorithm
  signature : List Nat

/-- Rust enum VerifyError of verify.rs. -/
inductive VerifyError where
  | DecodingSPKIFailed
  | InputTooLarge
  | LibraryFailure
  | SignatureVerificationFailed
deriving DecidableEq

def SI_BUFFER : Nat := 0

/-- Rust struct SECItem, with the data pointer abstracted away: only the
type tag and the length take part in the modelled control flow. -/
structure SECItem where
  typ : Nat
  len : Nat

/-- Rust SECItem::maybe_new: rejects slices longer than u32::max_value
(4294967295) with InputTooLarge, otherwise builds the item; the cast of
the length to u32 is exact thanks to the guard. -/
def SECItem.maybe_new (data : List Nat) : Except VerifyError SECItem :=
  if data.length > 4294967295 then
    .error .InputTooLarge
  else
    .ok { typ := SI_BUFFER, len := data.length }

def SEC_OID_PKCS1_RSA_ENCRYPTION : Nat := 16
def SEC_OID_SHA256 : Nat := 191
def SEC_OID_ANSIX962_EC_PUBLIC_KEY : Nat := 200

def SEC_SUCCESS : Int := 0
def SEC_FAILURE : Int := -1

/-- The external NSS provider, abstracted: whether decoding the SPKI
returns a non-null handle, whether extracting the public key returns a
non-null handle (both keyed by the SPKI bytes), and the SECStatus that
VFY_VerifyDigestDirect returns (keyed by the digest item, the SPKI bytes
standing for the extracted key handle, the signature item and the two
algorithm tags). Quantifying a theorem over this structure expresses
independence from the provider's behaviour. -/
structure NSSProvider where
  decodeSPKISucceeds : List Nat → Bool
  extractPublicKeySucceeds : List Nat → Bool
  verifyDigestDirect : SECItem → List Nat → SECItem → Nat → Nat → Int

/-- Rust verify_signed_digest, with the three FFI calls replaced by the
abstract provider: SPKI size check, SPKI decode (null handle means
DecodingSPKIFailed), key extraction (null means LibraryFailure), digest
and signature size checks, then the provider's SECStatus mapped to
Ok / SignatureVerificationFailed / LibraryFailure. -/
def verify_signed_digest (nss : NSSProvider) (sd : SignedDigest)
    (spki : List Nat) (kt : KeyType) : Except VerifyError Unit :=
  match SECItem.maybe_new spki with
  | .error e => .error e
  | .ok _spki_item =>
    if nss.decodeSPKISucceeds spki = false then
      .error .DecodingSPKIFailed
    else if nss.extractPublicKeySucceeds spki = false then
      .error .LibraryFailure
    else
      match SECItem.maybe_new sd.digest with
      | .error e => .error e
      | .ok digest_item =>
        match SECItem.maybe_new sd.signature with
        | .error e => .error e
        | .ok signature_item =>
          let enc_alg :=
            match kt with
            | .EC => SEC_OID_ANSIX962_EC_PUBLIC_KEY
            | .RSA => SEC_OID_PKCS1_RSA_ENCRYPTION
          let hash_alg :=
            match sd.digest_algorithm with
            | .SHA256 => SEC_OID_SHA256
          let result :=
            nss.verifyDigestDirect digest_item spki signature_item
              enc_alg hash_alg
          if result = SEC_SUCCESS then .ok ()
          else if result = SEC_FAILURE then
            .error .SignatureVerificationFailed
          else .error .LibraryFailure

/-- C9 counterexample: an oversized digest does not by itself produce
InputTooLarge — with a provider that fails to decode the SPKI, the call
returns DecodingSPKIFailed even though the digest slice exceeds the
2 ^ 32 - 1 limit, because the digest size check runs only after SPKI
decoding and key extraction. -/
theorem C9_counterexample :
    (List.replicate (2 ^ 32) 0).length > 2 ^ 32 - 1 ∧
    verify_signed_digest
      { decodeSPKISucceeds := fun _ => false,
        extractPublicKeySucceeds := fun _ => true,
        verifyDigestDirect := fun _ _ _ _ _ => 0 }
      { digest := List.replicate (2 ^ 32) 0,
        digest_algorithm := .SHA256,
        signature := [] }
      [] .EC = .error .DecodingSPKIFailed ∧
    (Except.error VerifyError.DecodingSPKIFailed ≠
      (Except.error .InputTooLarge : Except VerifyError Unit)) := by
  refine ⟨?_, rfl, ?_⟩
  · rw [List.length_replicate]
    omega
  · intro h
    injection h with h2
    exact VerifyError.noConfusion h2

/-- C9 (amended): an oversized SPKI always yields InputTooLarge whatever
the provider does, so before the provider can be consulted; an oversized
digest or signature yields the same typed failure provided the checks
that precede it pass — the SPKI within the limit and the provider's
SPKI decode and key extraction succeeding, and, for the signature, the
digest also within the limit. -/
theorem C9_input_too_large :
    (∀ (nss : NSSProvider) (sd : SignedDigest) (spki : List Nat)
        (kt : KeyType),
      spki.length > 2 ^ 32 - 1 →
      verify_signed_digest nss sd spki kt = .error .InputTooLarge) ∧
    (∀ (nss : NSSProvider) (sd : SignedDigest) (spki : List Nat)
        (kt : KeyType),
      spki.length ≤ 2 ^ 32 - 1 →
      nss.decodeSPKISucceeds spki = true →
      nss.extractPublicKeySucceeds spki = true →
      sd.digest.length > 2 ^ 32 - 1 →
      verify_signed_digest nss sd spki kt = .error .InputTooLarge) ∧
    (∀ (nss : NSSProvider) (sd : SignedDigest) (spki : List Nat)
        (kt : KeyType),
      spki.length ≤ 2 ^ 32 - 1 →
      nss.decodeSPKISucceeds spki = true →
      nss.extractPublicKeySucceeds spki = true →
      sd.digest.length ≤ 2 ^ 32 - 1 →
      sd.signature.length > 2 ^ 32 - 1 →
      verify_signed_digest nss sd spki kt = .error .InputTooLarge) := by
  refine ⟨?_, ?_, ?_⟩
  · intro nss sd spki kt h
    simp only [verify_signed_digest, SECItem.maybe_new,
      if_pos (show spki.length > 4294967295 by omega)]
  · intro nss sd spki kt h1 h2 h3 h4
    simp only [verify_signed_digest, SECItem.maybe_new,
      if_neg (show ¬spki.length > 4294967295 by omega), h2, h3,
      if_pos (show sd.digest.length > 4294967295 by omega)]
    simp
  · intro nss sd spki kt h1 h2 h3 h4 h5
    simp only [verify_signed_digest, SECItem.maybe_new,
      if_neg (show ¬spki.length > 4294967295 by omega), h2, h3,
      if_neg (show ¬sd.digest.length > 4294967295 by omega),
      if_pos (show sd.signature.length > 4294967295 by omega)]
    simp
